import Mathlib

/-!
Verification of the data-collector ETL pipeline (tourism POI pipeline).

Shallow embedding of the Python sources:
* `etl/transform/data_quality_validator.py` (DataQualityValidator)
* `etl/transform/standardizer.py` (Standardizer._deduplicate)
* `etl/transform/name_translator.py` (NameTranslator)
* `etl/enrich/ai_enricher.py` (AIEnricher)
* `etl/enrich/parallel_ai_enricher.py` (ParallelAIEnricher)
* `etl/load/supabase_loader.py` (SupabaseLoader)
* `archive/pipeline/harvester.py` (Harvester)

Python strings are modelled as lists of characters (`Str`); numeric JSON
values as rationals; dictionaries with a fixed field set as structures with
`Option` fields (a `none` field models an absent key); the file system as a
list of paths; HTTP traffic as explicit response values supplied to the
functions that would perform the calls.
-/

namespace DataCollector

/-- Python strings, modelled as lists of characters. -/
abbrev Str := List Char

/-- The characters Python's `str.strip()` removes (ASCII whitespace range;
the less common Unicode whitespace characters are not modelled). -/
def isPyWhitespace (c : Char) : Bool :=
  c == ' ' || c == '\t' || c == '\n' || c == '\r' || c == '\x0B' || c == '\x0C'

/-- Python `str.strip()`: drop leading and trailing whitespace. -/
def pyStrip (s : Str) : Str :=
  ((s.dropWhile isPyWhitespace).reverse.dropWhile isPyWhitespace).reverse

/-- ASCII lower-casing of one character (Python `str.lower()` restricted to
ASCII; no claim depends on non-ASCII case folding). -/
def asciiLower (c : Char) : Char :=
  if 'A' ≤ c ∧ c ≤ 'Z' then Char.ofNat (c.toNat + 32) else c

/-- ASCII upper-casing of one character. -/
def asciiUpper (c : Char) : Char :=
  if 'a' ≤ c ∧ c ≤ 'z' then Char.ofNat (c.toNat - 32) else c

/-- Python `str.lower()` (ASCII fragment). -/
def pyLower (s : Str) : Str := s.map asciiLower

/-- Python `str.capitalize()`: first character upper-cased, rest lower-cased
(ASCII fragment). -/
def pyCapitalize : Str → Str
  | [] => []
  | c :: rest => asciiUpper c :: rest.map asciiLower

/-- Character class of the validator's `english_pattern`
`^[A-Za-z0-9\s\-\x27\.\,\&\(\)]+$`. -/
def isEnglishChar (c : Char) : Bool :=
  decide ('A' ≤ c ∧ c ≤ 'Z') || decide ('a' ≤ c ∧ c ≤ 'z') ||
  decide ('0' ≤ c ∧ c ≤ '9') || isPyWhitespace c ||
  c == '-' || c == '\'' || c == '.' || c == ',' || c == '&' || c == '(' || c == ')'

/-- `DataQualityValidator._is_english`: full match of `english_pattern`. -/
def isEnglish (s : Str) : Bool := !s.isEmpty && s.all isEnglishChar

/-- Membership of a character's code point in a closed range. -/
def inCodeRange (lo hi : ℕ) (c : Char) : Bool :=
  decide (lo ≤ c.toNat ∧ c.toNat ≤ hi)

def isGeorgianChar (c : Char) : Bool := inCodeRange 0x10A0 0x10FF c

def isCyrillicChar (c : Char) : Bool := inCodeRange 0x0400 0x04FF c

def isArabicChar (c : Char) : Bool := inCodeRange 0x0600 0x06FF c

def isChineseChar (c : Char) : Bool := inCodeRange 0x4E00 0x9FFF c

def isJapaneseChar (c : Char) : Bool :=
  inCodeRange 0x3040 0x309F c || inCodeRange 0x30A0 0x30FF c

def isKoreanChar (c : Char) : Bool := inCodeRange 0xAC00 0xD7AF c

/-- `DataQualityValidator._detect_script`: first script (in the dictionary's
insertion order) with a character present in the text. -/
def detectScript (s : Str) : String :=
  if s.any isGeorgianChar then "georgian"
  else if s.any isCyrillicChar then "cyrillic"
  else if s.any isArabicChar then "arabic"
  else if s.any isChineseChar then "chinese"
  else if s.any isJapaneseChar then "japanese"
  else if s.any isKoreanChar then "korean"
  else "unknown"

/-- A POI record as seen by the validator.  `none` models an absent key.
Coordinate values are modelled as rationals; the `ValueError` branch of
`_has_valid_coordinates` (non-numeric values) is outside this input space. -/
structure Poi where
  name : Option Str
  lat : Option ℚ
  lon : Option ℚ
  poi_type : Option Str
deriving DecidableEq

/-- `DataQualityValidator._has_valid_coordinates`:
`lat = float(poi.get('lat', 0))`, `lon = float(poi.get('lon', 0))`,
range checks, then the `(0, 0)` check. -/
def hasValidCoordinates (p : Poi) : Bool :=
  let lat : ℚ := p.lat.getD 0
  let lon : ℚ := p.lon.getD 0
  if ¬(-90 ≤ lat ∧ lat ≤ 90) then false
  else if ¬(-180 ≤ lon ∧ lon ≤ 180) then false
  else if lat = 0 ∧ lon = 0 then false
  else true

/-- Python truthiness of an optional string value (`field in poi and poi[field]`). -/
def truthyStr : Option Str → Bool
  | none => false
  | some s => !s.isEmpty

/-- Python truthiness of an optional numeric value (`0` is falsy). -/
def truthyNum : Option ℚ → Bool
  | none => false
  | some x => decide (x ≠ 0)

/-- `DataQualityValidator._has_required_fields`:
`all(field in poi and poi[field] for field in ['name','lat','lon','poi_type'])`. -/
def hasRequiredFields (p : Poi) : Bool :=
  truthyStr p.name && truthyNum p.lat && truthyNum p.lon && truthyStr p.poi_type

def isDigitChar (c : Char) : Bool := decide ('0' ≤ c ∧ c ≤ '9')

def isUpperAZ (c : Char) : Bool := decide ('A' ≤ c ∧ c ≤ 'Z')

def isLowerAZ (c : Char) : Bool := decide ('a' ≤ c ∧ c ≤ 'z')

/-- `DataQualityValidator._is_suspicious`: each regex is applied with
`re.search` to `name.lower()`.  The anchored patterns `^\d+$`, `^[A-Z\s]+$`
and `^[a-z]\x7b1,2\x7d$` therefore full-match the lower-cased name, and
`test` / `unknown` / `unnamed` are substring searches in it. -/
def isSuspicious (name : Str) : Bool :=
  let nameLower := pyLower name
  (!nameLower.isEmpty && nameLower.all isDigitChar) ||
  (!nameLower.isEmpty && nameLower.all (fun c => isUpperAZ c || isPyWhitespace c)) ||
  decide ("test".toList <:+: nameLower) ||
  decide ("unknown".toList <:+: nameLower) ||
  decide ("unnamed".toList <:+: nameLower) ||
  ((nameLower.length == 1 || nameLower.length == 2) && nameLower.all isLowerAZ)

/-- `DataQualityValidator.validate_poi`: returns `(is_valid, reasons)`;
every check returns immediately on failure. -/
def validatePoi (p : Poi) : Bool × List String :=
  let name := pyStrip (p.name.getD [])
  if name.isEmpty then (false, ["Missing name"])
  else if name.length < 2 then
    (false, ["Name too short (" ++ toString name.length ++ " chars)"])
  else if name.length > 100 then
    (false, ["Name too long (" ++ toString name.length ++ " chars)"])
  else if ¬ isEnglish name then
    (false, ["Non-English name (detected: " ++ detectScript name ++ ")"])
  else if ¬ hasValidCoordinates p then
    (false, ["Invalid or missing coordinates"])
  else if ¬ hasRequiredFields p then
    (false, ["Missing required fields"])
  else if isSuspicious name then
    (false, ["Suspicious name pattern"])
  else (true, [])

/-- One `stats['rejection_reasons'][reason] = ...get(reason, 0) + 1` update of
the reason-count dictionary (insertion-ordered association list). -/
def bumpReason : List (String × ℕ) → String → List (String × ℕ)
  | [], r => [(r, 1)]
  | (k, n) :: rest, r =>
    if k = r then (k, n + 1) :: rest else (k, n) :: bumpReason rest r

/-- The `stats` dictionary built by `DataQualityValidator.validate_batch`. -/
structure BatchStats where
  total : ℕ
  valid : ℕ
  rejected : ℕ
  rejection_reasons : List (String × ℕ)
deriving DecidableEq

/-- The `for poi in pois` loop of `validate_batch`. -/
def validateBatchLoop : List Poi → List Poi × BatchStats → List Poi × BatchStats
  | [], st => st
  | p :: rest, (acc, stats) =>
    let r := validatePoi p
    if r.1 then
      validateBatchLoop rest (acc ++ [p], { stats with valid := stats.valid + 1 })
    else
      validateBatchLoop rest
        (acc, { stats with
                  rejected := stats.rejected + 1,
                  rejection_reasons := r.2.foldl bumpReason stats.rejection_reasons })

/-- `DataQualityValidator.validate_batch`. -/
def validateBatch (pois : List Poi) : List Poi × BatchStats :=
  validateBatchLoop pois ([], ⟨pois.length, 0, 0, []⟩)

/-- Count recorded for one reason in the statistics dictionary. -/
def reasonCount (l : List (String × ℕ)) (r : String) : ℕ :=
  (l.lookup r).getD 0

/-- Sum of all reason counts in the statistics dictionary. -/
def reasonsTotal (l : List (String × ℕ)) : ℕ := (l.map Prod.snd).sum


/-- The spec's coordinate-validity predicate: latitude in `[-90, 90]`,
longitude in `[-180, 180]`, and the pair is not the origin (values default
to `0` when the key is absent, as in the source). -/
def specCoordValid (p : Poi) : Prop :=
  let lat : ℚ := p.lat.getD 0
  let lon : ℚ := p.lon.getD 0
  (-90 ≤ lat ∧ lat ≤ 90) ∧ (-180 ≤ lon ∧ lon ≤ 180) ∧ ¬(lat = 0 ∧ lon = 0)

lemma hasValidCoordinates_iff (p : Poi) :
    hasValidCoordinates p = true ↔ specCoordValid p := by
  simp only [hasValidCoordinates, specCoordValid]
  split_ifs with h1 h2 h3 <;> simp_all

lemma validatePoi_true_imp_coords (p : Poi) :
    (validatePoi p).1 = true → hasValidCoordinates p = true := by
  simp only [validatePoi]
  split_ifs <;> simp_all

/-- C1 (amended): the coordinate check accepts a record exactly when the
spec's predicate holds, and every record violating the predicate is rejected
by `validate_poi`; the separate counterexample shows that records with
latitude `0` or longitude `0` can nonetheless fail the required-field check. -/
theorem coordinate_validation_amended (p : Poi) :
    (hasValidCoordinates p = true ↔ specCoordValid p) ∧
    ((validatePoi p).1 = true → specCoordValid p) := by
  refine ⟨hasValidCoordinates_iff p, fun h => ?_⟩
  exact (hasValidCoordinates_iff p).1 (validatePoi_true_imp_coords p h)

/-- A record with latitude `0` and a valid non-zero longitude: the spec's
coordinate predicate holds, yet cleaning rejects it. -/
def latZeroPoi : Poi := ⟨some "Blue Beach".toList, some 0, some 50, some "beach".toList⟩

/-- C1 (counterexample): `latZeroPoi` satisfies the coordinate predicate and
passes the coordinate check, but the required-field check treats the numeric
value `0` as missing and the record is rejected, refuting "every record
satisfying this predicate advances past cleaning's coordinate and
required-field checks". -/
theorem latZero_rejected_despite_valid_coordinates :
    hasValidCoordinates latZeroPoi = true ∧
    hasRequiredFields latZeroPoi = false ∧
    validatePoi latZeroPoi = (false, ["Missing required fields"]) := by decide

/-- C1 (witness for `coordinate_validation_amended`). -/
theorem coordinate_validation_amended_witness :
    specCoordValid latZeroPoi :=
  (coordinate_validation_amended latZeroPoi).1.mp (by decide)

lemma validatePoi_reasons_cases (p : Poi) :
    ((validatePoi p).1 = true ∧ (validatePoi p).2 = []) ∨
    ((validatePoi p).1 = false ∧ (validatePoi p).2.length = 1) := by
  simp only [validatePoi]
  split_ifs <;> simp

lemma bumpReason_total (l : List (String × ℕ)) (r : String) :
    reasonsTotal (bumpReason l r) = reasonsTotal l + 1 := by
  induction l with
  | nil => simp [bumpReason, reasonsTotal]
  | cons kv rest ih =>
    obtain ⟨k, n⟩ := kv
    by_cases h : k = r <;> simp [bumpReason, h, reasonsTotal] at * <;> omega

lemma validateBatchLoop_spec (pois : List Poi) :
    ∀ (acc : List Poi) (stats : BatchStats),
    (validateBatchLoop pois (acc, stats)).2.rejected
        = stats.rejected + pois.countP (fun p => !(validatePoi p).1) ∧
    reasonsTotal (validateBatchLoop pois (acc, stats)).2.rejection_reasons
        = reasonsTotal stats.rejection_reasons
            + pois.countP (fun p => !(validatePoi p).1) := by
  induction pois with
  | nil => intro acc stats; simp [validateBatchLoop]
  | cons p rest ih =>
    intro acc stats
    rcases validatePoi_reasons_cases p with ⟨hv, hr⟩ | ⟨hv, hr⟩
    · simp only [validateBatchLoop, hv, if_pos]
      rcases ih (acc ++ [p]) { stats with valid := stats.valid + 1 } with ⟨h1, h2⟩
      simp [h1, h2, List.countP_cons, hv]
    · obtain ⟨a, ha⟩ := List.length_eq_one.mp hr
      simp only [validateBatchLoop, hv, Bool.false_eq_true, if_false, ha,
        List.foldl_cons, List.foldl_nil]
      rcases ih acc
          { stats with
              rejected := stats.rejected + 1,
              rejection_reasons := bumpReason stats.rejection_reasons a } with ⟨h1, h2⟩
      constructor
      · rw [h1]; simp [List.countP_cons, hv]; omega
      · rw [h2, bumpReason_total]; simp [List.countP_cons, hv]; omega

/-- C3 (amended): `validate_batch` tallies, for each rejected record, exactly
one rejection reason, namely the first failing check in validation order:
the per-record reason list has length one on rejection, and the total of all
reason counts equals the number of rejected records. -/
theorem validateBatch_counts_first_reason_only (pois : List Poi) :
    reasonsTotal (validateBatch pois).2.rejection_reasons
        = (validateBatch pois).2.rejected ∧
    (validateBatch pois).2.rejected
        = pois.countP (fun p => !(validatePoi p).1) ∧
    ∀ p ∈ pois, (validatePoi p).1 = false → (validatePoi p).2.length = 1 := by
  rcases validateBatchLoop_spec pois [] ⟨pois.length, 0, 0, []⟩ with ⟨h1, h2⟩
  refine ⟨?_, ?_, ?_⟩
  · unfold validateBatch
    rw [h1, h2]
    simp [reasonsTotal]
  · unfold validateBatch
    rw [h1]
    simp
  · intro p _ hp
    rcases validatePoi_reasons_cases p with ⟨hv, _⟩ | ⟨_, hr⟩
    · rw [hp] at hv; cases hv
    · exact hr

/-- A record whose name is non-English and whose coordinates are invalid:
two rejection reasons apply to it simultaneously. -/
def badPoi : Poi := ⟨some "Мост".toList, some 0, some 0, some "bridge".toList⟩

/-- C3 (counterexample): `badPoi` has invalid coordinates and a non-English
name, yet the batch statistics count it only under the non-English reason —
the coordinate reason receives no count, refuting "every rejection reason
that applies is counted". -/
theorem badPoi_counted_under_single_reason :
    hasValidCoordinates badPoi = false ∧
    isEnglish (pyStrip (badPoi.name.getD [])) = false ∧
    (validateBatch [badPoi]).2.rejection_reasons
        = [("Non-English name (detected: cyrillic)", 1)] ∧
    reasonCount (validateBatch [badPoi]).2.rejection_reasons
        "Invalid or missing coordinates" = 0 := by decide

/-- C3 (witness for `validateBatch_counts_first_reason_only`). -/
theorem validateBatch_counts_first_reason_only_witness :
    (validatePoi badPoi).2.length = 1 ∧
    reasonsTotal (validateBatch [badPoi]).2.rejection_reasons
        = (validateBatch [badPoi]).2.rejected :=
  ⟨(validateBatch_counts_first_reason_only [badPoi]).2.2 badPoi (by decide) (by decide),
   (validateBatch_counts_first_reason_only [badPoi]).1⟩

/-- An all-caps single-token name that passes every other check. -/
def allCapsPoi : Poi := ⟨some "ABC".toList, some 40, some 49, some "fort".toList⟩

/-- C10 (code bug): the suspicious-pattern check matches `^[A-Z\s]+$` against
the lower-cased name, so the all-caps branch can never fire; the all-caps
single-token name "ABC" passes length, language, coordinate and
required-field checks, yet `_is_suspicious` returns `False` and the record
is accepted, contradicting both the spec and the source's own comment
("Only uppercase (likely abbreviation or code)"). -/
theorem allCaps_single_token_accepted :
    isEnglish "ABC".toList = true ∧
    isSuspicious "ABC".toList = false ∧
    validatePoi allCapsPoi = (true, []) := by decide


/-- A cleaned POI as produced by `Standardizer._process_elements`: the fields
that participate in deduplication plus the identity key. -/
structure SPoi where
  osm_id : String
  name : Str
  category : String
deriving DecidableEq

/-- The composite deduplication key `(p['name'].lower(), p['category'])`. -/
def dedupKey (p : SPoi) : Str × String := (pyLower p.name, p.category)

/-- The loop of `Standardizer._deduplicate`, carrying the `seen` set. -/
def dedupGo : List (Str × String) → List SPoi → List SPoi
  | _, [] => []
  | seen, p :: rest =>
    if dedupKey p ∈ seen then dedupGo seen rest
    else p :: dedupGo (dedupKey p :: seen) rest

/-- `Standardizer._deduplicate`. -/
def deduplicate (pois : List SPoi) : List SPoi := dedupGo [] pois

lemma dedupGo_subset (seen : List (Str × String)) (pois : List SPoi) :
    dedupGo seen pois ⊆ pois := by
  induction pois generalizing seen with
  | nil => simp [dedupGo]
  | cons p rest ih =>
    simp only [dedupGo]
    split_ifs
    · exact (ih seen).trans (List.subset_cons_self p rest)
    · exact List.cons_subset_cons p (ih (dedupKey p :: seen))

lemma dedupGo_count (pois : List SPoi) :
    ∀ (seen : List (Str × String)) (k : Str × String),
    (k ∈ seen → (dedupGo seen pois).countP (fun p => decide (dedupKey p = k)) = 0) ∧
    (k ∉ seen → k ∈ pois.map dedupKey →
      (dedupGo seen pois).countP (fun p => decide (dedupKey p = k)) = 1) := by
  induction pois with
  | nil => simp [dedupGo]
  | cons p rest ih =>
    intro seen k
    constructor
    · intro hk
      simp only [dedupGo]
      split_ifs with hmem
      · exact (ih seen k).1 hk
      · have hne : dedupKey p ≠ k := fun h => hmem (h ▸ hk)
        simp [List.countP_cons, hne, (ih (dedupKey p :: seen) k).1 (by simp [hk])]
    · intro hk hmem
      simp only [dedupGo]
      split_ifs with hseen
      · rcases List.mem_map.mp hmem with ⟨q, hq, hqk⟩
        rcases List.mem_cons.mp hq with rfl | hqrest
        · exact absurd (hqk ▸ hseen) hk
        · exact (ih seen k).2 hk (List.mem_map.mpr ⟨q, hqrest, hqk⟩)
      · by_cases hpk : dedupKey p = k
        · have h0 := (ih (dedupKey p :: seen) k).1 (by simp [hpk])
          rw [List.countP_cons, h0]
          simp [hpk]
        · have hrest : k ∈ rest.map dedupKey := by
            rcases List.mem_map.mp hmem with ⟨q, hq, hqk⟩
            rcases List.mem_cons.mp hq with rfl | hqrest
            · exact absurd hqk hpk
            · exact List.mem_map.mpr ⟨q, hqrest, hqk⟩
          have hk2 : k ∉ dedupKey p :: seen := by
            intro hcon
            rcases List.mem_cons.mp hcon with hcon | hcon
            · exact hpk hcon.symm
            · exact hk hcon
          have h1 := (ih (dedupKey p :: seen) k).2 hk2 hrest
          rw [List.countP_cons, h1]
          simp [hpk]

/-- Two records with the same lower-cased name and category but different
identifiers. -/
def spoiA : SPoi := ⟨"node/1", "Old Fort".toList, "historic"⟩

def spoiB : SPoi := ⟨"way/2", "OLD FORT".toList, "historic"⟩

/-- C7: deduplication keeps exactly one record per composite
`(lowercased name, category)` key: the output is a sublist of the input,
every key occurring in the input occurs exactly once in the output, and on
the two-record example with equal keys and different identifiers exactly the
first record survives. -/
theorem deduplicate_one_record_per_key (pois : List SPoi) :
    deduplicate pois ⊆ pois ∧
    (∀ k ∈ pois.map dedupKey,
      (deduplicate pois).countP (fun p => decide (dedupKey p = k)) = 1) ∧
    deduplicate [spoiA, spoiB] = [spoiA] := by
  refine ⟨dedupGo_subset [] pois, fun k hk => ?_, by decide⟩
  exact (dedupGo_count pois [] k).2 (by simp) hk

/-- C7 (witness for `deduplicate_one_record_per_key`). -/
theorem deduplicate_one_record_per_key_witness :
    (deduplicate [spoiA, spoiB]).countP
        (fun p => decide (dedupKey p = dedupKey spoiA)) = 1 :=
  (deduplicate_one_record_per_key [spoiA, spoiB]).2.1 (dedupKey spoiA) (by decide)


/-- A bounding box `\x7bnorth, south, east, west\x7d` (degrees as rationals;
the source's floats are modelled exactly, the claim's tolerance caveat
becomes exact equality). -/
structure BBox where
  north : ℚ
  south : ℚ
  east : ℚ
  west : ℚ
deriving DecidableEq

/-- A tile as appended by `Harvester.generate_tiles`. -/
structure Tile where
  south : ℚ
  west : ℚ
  north : ℚ
  east : ℚ
deriving DecidableEq

/-- Iteration count of `while lat < north: ... lat += step` started at `lo`
with positive `step`. -/
def stepCount (lo hi stp : ℚ) : ℕ := (Int.ceil ((hi - lo) / stp)).toNat

/-- The `while` loop of `generate_tiles`, with fuel equal to the exact
iteration count (`genStarts` below); returns the successive loop-variable
values. -/
def genStartsFuel (hi stp : ℚ) : ℕ → ℚ → List ℚ
  | 0, _ => []
  | fuel + 1, x => if x < hi then x :: genStartsFuel hi stp fuel (x + stp) else []

/-- Successive values of the loop variable of
`while lat < north: ... lat += step` (for positive `step` this is exactly
the loop; for `step ≤ 0` the source loop would not terminate). -/
def genStarts (lo hi stp : ℚ) : List ℚ :=
  genStartsFuel hi stp (stepCount lo hi stp) lo

/-- `Harvester.generate_tiles`: the nested `while` loops over latitude and
longitude, each tile clipped to the box with `min`. -/
def generateTiles (bbox : BBox) (stp : ℚ) : List Tile :=
  (genStarts bbox.south bbox.north stp).flatMap (fun lat =>
    (genStarts bbox.west bbox.east stp).map (fun lon =>
      { south := lat, west := lon,
        north := min (lat + stp) bbox.north,
        east := min (lon + stp) bbox.east }))

/-- Half-open containment of a point in a tile (the no-overlap reading of
the cover property). -/
def tileMem (t : Tile) (x y : ℚ) : Prop :=
  t.south ≤ x ∧ x < t.north ∧ t.west ≤ y ∧ y < t.east

lemma stepCount_sub_step (hi stp lo : ℚ) (hstp : 0 < stp) (fuel : ℕ)
    (hle : stepCount lo hi stp ≤ fuel + 1) :
    stepCount (lo + stp) hi stp ≤ fuel := by
  have harg : (hi - (lo + stp)) / stp = (hi - lo) / stp - 1 := by
    field_simp
    ring
  have hceil : Int.ceil ((hi - (lo + stp)) / stp) = Int.ceil ((hi - lo) / stp) - 1 := by
    rw [harg]
    simpa using Int.ceil_sub_int ((hi - lo) / stp) 1
  unfold stepCount at *
  omega

lemma stepCount_zero_imp (lo hi stp : ℚ) (hstp : 0 < stp)
    (h : stepCount lo hi stp = 0) : hi ≤ lo := by
  unfold stepCount at h
  have h0 : Int.ceil ((hi - lo) / stp) ≤ 0 := by omega
  have h1 : (hi - lo) / stp ≤ ((0 : ℤ) : ℚ) := Int.ceil_le.mp h0
  have h2 : (hi - lo) / stp ≤ 0 := by simpa using h1
  rcases div_nonpos_iff.mp h2 with ⟨ha, hb⟩ | ⟨ha, hb⟩
  · linarith
  · linarith

lemma mem_genStartsFuel (hi stp : ℚ) (hstp : 0 < stp) :
    ∀ (fuel : ℕ) (lo : ℚ), stepCount lo hi stp ≤ fuel →
    ∀ x : ℚ, x ∈ genStartsFuel hi stp fuel lo ↔ ∃ i : ℕ, x = lo + i * stp ∧ x < hi := by
  intro fuel
  induction fuel with
  | zero =>
    intro lo hle x
    simp only [genStartsFuel, List.not_mem_nil, false_iff]
    rintro ⟨i, rfl, hx⟩
    have hhi : hi ≤ lo := stepCount_zero_imp lo hi stp hstp (Nat.le_zero.mp hle)
    have hnn : (0 : ℚ) ≤ (i : ℚ) * stp := mul_nonneg (Nat.cast_nonneg i) hstp.le
    linarith
  | succ fuel ih =>
    intro lo hle x
    by_cases hlo : lo < hi
    · have hcount := stepCount_sub_step hi stp lo hstp fuel hle
      simp only [genStartsFuel, if_pos hlo, List.mem_cons]
      rw [ih (lo + stp) hcount x]
      constructor
      · rintro (rfl | ⟨i, rfl, hx⟩)
        · exact ⟨0, by simp, hlo⟩
        · exact ⟨i + 1, by push_cast; ring_nf, hx⟩
      · rintro ⟨i, rfl, hx⟩
        cases i with
        | zero => left; simp
        | succ j =>
          right
          refine ⟨j, by push_cast; ring_nf, ?_⟩
          · exact hx
    · simp only [genStartsFuel, if_neg hlo, List.not_mem_nil, false_iff]
      rintro ⟨i, rfl, hx⟩
      have hnn : (0 : ℚ) ≤ (i : ℚ) * stp := mul_nonneg (Nat.cast_nonneg i) hstp.le
      push_neg at hlo
      linarith

lemma mem_genStarts (lo hi stp : ℚ) (hstp : 0 < stp) (x : ℚ) :
    x ∈ genStarts lo hi stp ↔ ∃ i : ℕ, x = lo + i * stp ∧ x < hi :=
  mem_genStartsFuel hi stp hstp (stepCount lo hi stp) lo le_rfl x

lemma genStarts_unique_cover (lo hi stp x : ℚ) (hstp : 0 < stp)
    (hx1 : lo ≤ x) (hx2 : x < hi) :
    ∃! r, r ∈ genStarts lo hi stp ∧ r ≤ x ∧ x < r + stp := by
  have hfnn : 0 ≤ Int.floor ((x - lo) / stp) :=
    Int.floor_nonneg.mpr (div_nonneg (by linarith) hstp.le)
  set i : ℕ := (Int.floor ((x - lo) / stp)).toNat with hi_def
  have hicast : ((i : ℚ)) = ((Int.floor ((x - lo) / stp) : ℤ) : ℚ) := by
    have := Int.toNat_of_nonneg hfnn
    exact_mod_cast congrArg (fun z : ℤ => (z : ℚ)) this
  have hfl : ((i : ℚ)) ≤ (x - lo) / stp := by
    rw [hicast]
    exact Int.floor_le _
  have hfu : (x - lo) / stp < (i : ℚ) + 1 := by
    rw [hicast]
    exact Int.lt_floor_add_one _
  have hlow : lo + (i : ℚ) * stp ≤ x := by
    have := (le_div_iff₀ hstp).mp hfl
    linarith
  have hhigh : x < lo + (i : ℚ) * stp + stp := by
    have := (div_lt_iff₀ hstp).mp hfu
    nlinarith
  refine ⟨lo + (i : ℚ) * stp, ⟨?_, hlow, hhigh⟩, ?_⟩
  · exact (mem_genStarts lo hi stp hstp _).mpr ⟨i, rfl, by linarith⟩
  · rintro r ⟨hrmem, hrle, hrlt⟩
    rcases (mem_genStarts lo hi stp hstp r).mp hrmem with ⟨j, rfl, hjhi⟩
    have hj1 : (j : ℚ) ≤ (x - lo) / stp := by
      rw [le_div_iff₀ hstp]
      linarith
    have hj2 : (x - lo) / stp < (j : ℚ) + 1 := by
      rw [div_lt_iff₀ hstp]
      nlinarith
    have hfj : Int.floor ((x - lo) / stp) = (j : ℤ) := by
      rw [Int.floor_eq_iff]
      constructor
      · exact_mod_cast hj1
      · exact_mod_cast hj2
    have hij : i = j := by
      rw [hi_def, hfj]
      exact Int.toNat_natCast j
    rw [hij]

lemma mem_generateTiles (bbox : BBox) (stp : ℚ) (t : Tile) :
    t ∈ generateTiles bbox stp ↔
      ∃ lat ∈ genStarts bbox.south bbox.north stp,
        ∃ lon ∈ genStarts bbox.west bbox.east stp,
          t = { south := lat, west := lon,
                north := min (lat + stp) bbox.north,
                east := min (lon + stp) bbox.east } := by
  simp only [generateTiles, List.mem_flatMap, List.mem_map]
  constructor
  · rintro ⟨lat, hlat, lon, hlon, rfl⟩
    exact ⟨lat, hlat, lon, hlon, rfl⟩
  · rintro ⟨lat, hlat, lon, hlon, rfl⟩
    exact ⟨lat, hlat, lon, hlon, rfl⟩

lemma stepCount_scenario : stepCount 0 10 5 = 2 := by
  unfold stepCount
  norm_num
  decide

lemma genStarts_scenario : genStarts 0 10 5 = [0, 5] := by
  rw [genStarts, stepCount_scenario]
  norm_num [genStartsFuel]

lemma generateTiles_scenario :
    generateTiles ⟨10, 0, 10, 0⟩ 5 =
      [⟨0, 0, 5, 5⟩, ⟨0, 5, 5, 10⟩, ⟨5, 0, 10, 5⟩, ⟨5, 5, 10, 10⟩] := by
  have h : genStarts (BBox.south ⟨10, 0, 10, 0⟩) (BBox.north ⟨10, 0, 10, 0⟩) 5 = [0, 5] :=
    genStarts_scenario
  unfold generateTiles
  norm_num [genStarts_scenario]

/-- C5: for every box with `south < north`, `west < east` and positive step,
every generated tile fits inside the box with both dimensions at most the
step, every point of the box lies in exactly one tile (half-open reading:
no gaps, no overlaps), and the 10-degree box with step 5 yields exactly the
four 5-by-5 tiles. -/
theorem generateTiles_covers_box (bbox : BBox) (stp : ℚ)
    (hsn : bbox.south < bbox.north) (hwe : bbox.west < bbox.east)
    (hstp : 0 < stp) :
    (∀ t ∈ generateTiles bbox stp,
        t.north - t.south ≤ stp ∧ t.east - t.west ≤ stp ∧
        bbox.south ≤ t.south ∧ t.north ≤ bbox.north ∧
        bbox.west ≤ t.west ∧ t.east ≤ bbox.east) ∧
    (∀ x y : ℚ, bbox.south ≤ x → x < bbox.north → bbox.west ≤ y → y < bbox.east →
        ∃! t, t ∈ generateTiles bbox stp ∧ tileMem t x y) ∧
    generateTiles ⟨10, 0, 10, 0⟩ 5 =
      [⟨0, 0, 5, 5⟩, ⟨0, 5, 5, 10⟩, ⟨5, 0, 10, 5⟩, ⟨5, 5, 10, 10⟩] := by
  refine ⟨?_, ?_, generateTiles_scenario⟩
  · intro t ht
    rcases (mem_generateTiles bbox stp t).mp ht with ⟨lat, hlat, lon, hlon, rfl⟩
    rcases (mem_genStarts _ _ _ hstp lat).mp hlat with ⟨i, rfl, hlat_hi⟩
    rcases (mem_genStarts _ _ _ hstp lon).mp hlon with ⟨j, rfl, hlon_hi⟩
    have hi0 : (0 : ℚ) ≤ (i : ℚ) * stp := mul_nonneg (Nat.cast_nonneg i) hstp.le
    have hj0 : (0 : ℚ) ≤ (j : ℚ) * stp := mul_nonneg (Nat.cast_nonneg j) hstp.le
    dsimp only
    refine ⟨?_, ?_, by linarith, min_le_right _ _, by linarith, min_le_right _ _⟩
    · linarith [min_le_left (bbox.south + (i : ℚ) * stp + stp) bbox.north]
    · linarith [min_le_left (bbox.west + (j : ℚ) * stp + stp) bbox.east]
  · intro x y hx1 hx2 hy1 hy2
    obtain ⟨r, ⟨hrmem, hrle, hrlt⟩, hruniq⟩ :=
      genStarts_unique_cover bbox.south bbox.north stp x hstp hx1 hx2
    obtain ⟨c, ⟨hcmem, hcle, hclt⟩, hcuniq⟩ :=
      genStarts_unique_cover bbox.west bbox.east stp y hstp hy1 hy2
    refine ⟨{ south := r, west := c,
              north := min (r + stp) bbox.north,
              east := min (c + stp) bbox.east }, ⟨?_, ?_⟩, ?_⟩
    · exact (mem_generateTiles bbox stp _).mpr ⟨r, hrmem, c, hcmem, rfl⟩
    · exact ⟨hrle, lt_min hrlt hx2, hcle, lt_min hclt hy2⟩
    · rintro t ⟨htmem, htx⟩
      rcases (mem_generateTiles bbox stp t).mp htmem with ⟨lat, hlat, lon, hlon, rfl⟩
      obtain ⟨hts, htn, htw, hte⟩ := htx
      simp only at hts htn htw hte
      have hlat_eq : lat = r :=
        hruniq lat ⟨hlat, hts, lt_of_lt_of_le htn (min_le_left _ _)⟩
      have hlon_eq : lon = c :=
        hcuniq lon ⟨hlon, htw, lt_of_lt_of_le hte (min_le_left _ _)⟩
      rw [hlat_eq, hlon_eq]

/-- C5 (witness for `generateTiles_covers_box`). -/
theorem generateTiles_covers_box_witness :
    ∃! t, t ∈ generateTiles ⟨10, 0, 10, 0⟩ 5 ∧ tileMem t 1 7 :=
  (generateTiles_covers_box ⟨10, 0, 10, 0⟩ 5 (by norm_num) (by norm_num)
      (by norm_num)).2.1 1 7 (by norm_num) (by norm_num) (by norm_num) (by norm_num)

/-- Outcome of one HTTP POST in `Harvester.fetch_tile`: a status code with
the parse result of the body (`none` models a `JSONDecodeError`, `some b`
a parsed object where `b` says whether the `elements` key is present), or a
network error (`requests.RequestException`). -/
inductive HttpResp where
  | resp (status : ℕ) (elementsParsed : Option Bool)
  | netError
deriving DecidableEq

/-- Result of `fetch_tile`: the returned boolean, the number of HTTP
requests issued, and the file system afterwards. -/
structure FetchOutcome where
  success : Bool
  calls : ℕ
  fs : List String
deriving DecidableEq

/-- The retry loop of `Harvester.fetch_tile` (`max_retries = 5`).  `resps`
maps the index of each issued request to its outcome; `fuel` bounds the
loop, which the source does not (a 200 response whose body lacks an
`elements` key re-enters the loop without incrementing `retries`).  The
claims proved below only concern runs that never enter this loop. -/
def fetchLoop (resps : ℕ → HttpResp) (path : String) :
    ℕ → ℕ → ℕ → List String → FetchOutcome
  | 0, _, calls, fs => ⟨false, calls, fs⟩
  | fuel + 1, retries, calls, fs =>
    if 5 ≤ retries then ⟨false, calls, fs⟩
    else
      match resps calls with
      | .netError => fetchLoop resps path fuel (retries + 1) (calls + 1) fs
      | .resp status parsed =>
        if status = 200 then
          match parsed with
          | some true => ⟨true, calls + 1, path :: fs⟩
          | _ => fetchLoop resps path fuel retries (calls + 1) fs
        else if status = 429 then fetchLoop resps path fuel (retries + 1) (calls + 1) fs
        else if 500 ≤ status then fetchLoop resps path fuel (retries + 1) (calls + 1) fs
        else ⟨false, calls + 1, fs⟩

/-- `Harvester.fetch_tile`: if the tile's output file already exists the
function returns `True` immediately, issuing no request and leaving the
file system unchanged; otherwise it runs the retry loop. -/
def fetchTile (fs : List String) (path : String) (resps : ℕ → HttpResp)
    (fuel : ℕ) : FetchOutcome :=
  if path ∈ fs then ⟨true, 0, fs⟩
  else fetchLoop resps path fuel 0 0 fs

/-- The tile loop of `Harvester.harvest_city`: runs `fetch_tile` for each
tile file name, threading the file system and accumulating the success
count and the total number of HTTP requests. -/
def harvestLoop (resps : String → ℕ → HttpResp) (fuel : ℕ) :
    List String → ℕ × ℕ × List String → ℕ × ℕ × List String
  | [], acc => acc
  | nm :: rest, acc =>
    let r := fetchTile acc.2.2 nm (resps nm) fuel
    harvestLoop resps fuel rest
      (acc.1 + (if r.success then 1 else 0), acc.2.1 + r.calls, r.fs)

/-- `Harvester.harvest_city` (tile-fetching part): success count, total
HTTP requests issued, and final file system. -/
def harvestCity (fs : List String) (tileNames : List String)
    (resps : String → ℕ → HttpResp) (fuel : ℕ) : ℕ × ℕ × List String :=
  harvestLoop resps fuel tileNames (0, 0, fs)

lemma harvestLoop_all_present (resps : String → ℕ → HttpResp) (fuel : ℕ) :
    ∀ (tileNames : List String) (fs : List String) (s c : ℕ),
    (∀ nm ∈ tileNames, nm ∈ fs) →
    harvestLoop resps fuel tileNames (s, c, fs) = (s + tileNames.length, c, fs) := by
  intro tileNames
  induction tileNames with
  | nil => intro fs s c _; simp [harvestLoop]
  | cons nm rest ih =>
    intro fs s c hall
    have hnm : nm ∈ fs := hall nm (List.mem_cons_self nm rest)
    have hrest : ∀ x ∈ rest, x ∈ fs := fun x hx => hall x (List.mem_cons_of_mem nm hx)
    have hone : fetchTile fs nm (resps nm) fuel = ⟨true, 0, fs⟩ := by
      simp [fetchTile, hnm]
    simp only [harvestLoop, hone]
    norm_num
    rw [ih fs (s + 1) c hrest]
    simp [List.length_cons]
    omega

/-- C8: a tile whose output file exists is treated as complete — `fetch_tile`
returns success with zero HTTP requests and an unchanged file system — and a
harvest run over a directory already containing every tile file reports all
tiles successful while issuing zero external calls in total. -/
theorem fetchTile_skips_existing (fs : List String) (path : String)
    (resps : ℕ → HttpResp) (resps2 : String → ℕ → HttpResp) (fuel : ℕ)
    (tileNames : List String) :
    (path ∈ fs → fetchTile fs path resps fuel = ⟨true, 0, fs⟩) ∧
    ((∀ nm ∈ tileNames, nm ∈ fs) →
      harvestCity fs tileNames resps2 fuel = (tileNames.length, 0, fs)) := by
  constructor
  · intro hmem
    simp [fetchTile, hmem]
  · intro hall
    unfold harvestCity
    rw [harvestLoop_all_present resps2 fuel tileNames fs 0 0 hall]
    simp

/-- C8 (witness for `fetchTile_skips_existing`). -/
theorem fetchTile_skips_existing_witness :
    fetchTile ["tile_0.json", "tile_1.json"] "tile_0.json"
        (fun _ => HttpResp.netError) 10 = ⟨true, 0, ["tile_0.json", "tile_1.json"]⟩ ∧
    harvestCity ["tile_0.json", "tile_1.json"] ["tile_0.json", "tile_1.json"]
        (fun _ _ => HttpResp.netError) 10 = (2, 0, ["tile_0.json", "tile_1.json"]) :=
  ⟨(fetchTile_skips_existing ["tile_0.json", "tile_1.json"] "tile_0.json"
      (fun _ => HttpResp.netError) (fun _ _ => HttpResp.netError) 10
      ["tile_0.json", "tile_1.json"]).1 (by decide),
   (fetchTile_skips_existing ["tile_0.json", "tile_1.json"] "tile_0.json"
      (fun _ => HttpResp.netError) (fun _ _ => HttpResp.netError) 10
      ["tile_0.json", "tile_1.json"]).2 (by decide)⟩

/-- A POI as consumed by `AIEnricher._enrich_poi` and
`_generate_fallback_enrichment` (the fields those functions read). -/
structure EPoi where
  name : String
  category : Option String
deriving DecidableEq

/-- The enrichment payload produced by `AIEnricher` (the keys filled by
`_generate_fallback_enrichment` and guaranteed by the `setdefault` calls). -/
structure Enrichment where
  description : String
  duration_min : ℤ
  best_time : String
  best_time_reason : String
  personas : List (String × ℤ)
  price_level : ℤ
  tips : List String
  what_to_expect : String
  is_popular : Bool
deriving DecidableEq

/-- The `price_map` of `_generate_fallback_enrichment`. -/
def priceMap : List (String × ℤ) :=
  [("museum", 1), ("gallery", 1), ("attraction", 2),
   ("restaurant", 2), ("cafe", 1), ("bar", 2),
   ("hotel", 3), ("viewpoint", 0), ("park", 0),
   ("historic", 0), ("monument", 0), ("memorial", 0)]

/-- `AIEnricher._generate_fallback_enrichment`. -/
def generateFallbackEnrichment (poi : EPoi) (cityName : String) : Enrichment :=
  let category := poi.category.getD "place"
  { description := "A wonderful " ++ category ++ " in " ++ cityName ++ "."
    duration_min := 60
    best_time := "Morning"
    best_time_reason := "Good time to visit"
    personas := [("Culture", 80), ("Relax", 50)]
    price_level := (List.lookup category priceMap).getD 2
    tips := ["Check opening hours before visiting"]
    what_to_expect := "An interesting " ++ category ++ " experience"
    is_popular := false }

/-- Outcome of the HTTP POST to the generative backend: a status code with
the `response` text, or an exception (timeout, network error, malformed
outer JSON). -/
inductive BackendResult where
  | http (status : ℕ) (content : String)
  | failure
deriving DecidableEq

/-- Index of the first occurrence of a character (`str.find`, `none` for
`-1`). -/
def findChar (s : Str) (c : Char) : Option ℕ := s.findIdx? (· == c)

/-- Index of the last occurrence of a character (`str.rfind`). -/
def rfindChar (s : Str) (c : Char) : Option ℕ :=
  (s.reverse.findIdx? (· == c)).map (fun i => s.length - 1 - i)

/-- The JSON-extraction heuristic of `_enrich_poi`:
`start = content.find('\x7b')`, `end = content.rfind('\x7d') + 1`,
`json.loads(content[start:end])` guarded by `start != -1` (the `end` guard
`end != -1` is vacuous since `rfind + 1 ≥ 0`).  `loads` abstracts
`json.loads` followed by the `setdefault` calls; `none` models a parse
exception, which the enclosing `try` turns into the fallback. -/
def parseEnrichment (loads : String → Option Enrichment) (content : String) :
    Option Enrichment :=
  match findChar content.toList '\x7b' with
  | none => none
  | some s =>
    let e := match rfindChar content.toList '\x7d' with
             | none => 0
             | some j => j + 1
    loads (String.mk ((content.toList.drop s).take (e - s)))

/-- `AIEnricher._enrich_poi`: on a 200 response the extracted object is
returned; every other path — non-200 status, request exception, no opening
brace, or a parse exception — falls back to
`_generate_fallback_enrichment`. -/
def enrichPoi (loads : String → Option Enrichment) (poi : EPoi)
    (cityName : String) (res : BackendResult) : Enrichment :=
  match res with
  | .failure => generateFallbackEnrichment poi cityName
  | .http status content =>
    if status = 200 then
      match parseEnrichment loads content with
      | some d => d
      | none => generateFallbackEnrichment poi cityName
    else generateFallbackEnrichment poi cityName

/-- C6: every generative-backend failure mode — request exception, non-200
status, or a 200 response from which no JSON object can be extracted —
yields the deterministic fallback payload, and with a backend that always
answers HTTP 500 the POI "Old Fort" of category "historic" receives a
non-empty description and `price_level = 0`. -/
theorem enrichPoi_falls_back_on_failure (loads : String → Option Enrichment)
    (poi : EPoi) (cityName : String) (res : BackendResult)
    (hfail : res = .failure ∨
      (∃ st c, res = .http st c ∧ st ≠ 200) ∨
      (∃ c, res = .http 200 c ∧ parseEnrichment loads c = none)) :
    enrichPoi loads poi cityName res = generateFallbackEnrichment poi cityName ∧
    ((enrichPoi loads ⟨"Old Fort", some "historic"⟩ cityName (.http 500 "")).description ≠ "" ∧
     (enrichPoi loads ⟨"Old Fort", some "historic"⟩ cityName (.http 500 "")).price_level = 0) := by
  constructor
  · rcases hfail with rfl | ⟨st, c, rfl, hst⟩ | ⟨c, rfl, hparse⟩
    · rfl
    · simp [enrichPoi, hst]
    · simp [enrichPoi, hparse]
  · constructor
    · show ("A wonderful " ++ "historic" ++ " in " ++ cityName ++ "." : String) ≠ ""
      intro hcon
      have := congrArg String.length hcon
      simp [String.length_append] at this
      exact absurd this.1.1 (by decide)
    · rfl

/-- C6 (witness for `enrichPoi_falls_back_on_failure`). -/
theorem enrichPoi_falls_back_on_failure_witness :
    enrichPoi (fun _ => none) ⟨"Old Fort", some "historic"⟩ "Baku" (.http 500 "xyz")
        = generateFallbackEnrichment ⟨"Old Fort", some "historic"⟩ "Baku" :=
  (enrichPoi_falls_back_on_failure (fun _ => none) ⟨"Old Fort", some "historic"⟩
      "Baku" (.http 500 "xyz")
      (Or.inr (Or.inl ⟨500, "xyz", rfl, by decide⟩))).1

/-- A POI in the enrichment stage: identity key, name, priority score, and
the optional enrichment payload attached by `poi.update(enriched_data)`. -/
structure GPoi where
  osm_id : String
  name : String
  priority_score : ℤ
  payload : Option Enrichment
deriving DecidableEq

/-- The enrichment loop of `AIEnricher.process_city`: `enriched_pois` starts
as the existing Gold records (`acc`), `existing_ids` is the identity set
loaded from the Gold file, records already enriched are skipped, `count`
enforces `limit`, and each enriched record is appended.  `enrich` abstracts
`_enrich_poi` (`none` models a falsy `enriched_data`, in which case the
record is skipped). -/
def processPois (existingIds : List String) (limit : ℕ)
    (enrich : GPoi → Option Enrichment) :
    List GPoi → ℕ → List GPoi → List GPoi
  | [], _, acc => acc
  | p :: rest, count, acc =>
    if limit ≤ count then acc
    else if p.osm_id ∈ existingIds then processPois existingIds limit enrich rest count acc
    else if p.priority_score < 0 then processPois existingIds limit enrich rest count acc
    else
      match enrich p with
      | some d =>
        processPois existingIds limit enrich rest (count + 1)
          (acc ++ [{ p with payload := some d }])
      | none => processPois existingIds limit enrich rest count acc

/-- `AIEnricher.process_city` after the Silver/manual/CSV merge and
prioritization: `input` is the prioritized record list (merged manual/CSV
records included), `existing` the previously persisted Gold records. -/
def processCityGold (existing : List GPoi) (input : List GPoi) (limit : ℕ)
    (enrich : GPoi → Option Enrichment) : List GPoi :=
  processPois (existing.map GPoi.osm_id) limit enrich input 0 existing

/-- `ParallelAIEnricher.process_city`: the skip set computed up front. -/
def parallelToEnrich (existing input : List GPoi) : List GPoi :=
  input.filter (fun p => decide (p.osm_id ∉ existing.map GPoi.osm_id))

/-- `ParallelAIEnricher.process_city`: `all_pois = existing_pois +
enriched_pois`, where `results` is the worker-pool output collected in
completion order. -/
def parallelMerge (existing results : List GPoi) : List GPoi :=
  existing ++ results

lemma processPois_split (existingIds : List String) (limit : ℕ)
    (enrich : GPoi → Option Enrichment) :
    ∀ (input : List GPoi) (count : ℕ) (acc : List GPoi),
    ∃ news, processPois existingIds limit enrich input count acc = acc ++ news ∧
      (∀ q ∈ news, q.osm_id ∉ existingIds ∧ q.osm_id ∈ input.map GPoi.osm_id) ∧
      ((input.map GPoi.osm_id).Nodup → (news.map GPoi.osm_id).Nodup) := by
  intro input
  induction input with
  | nil =>
    intro count acc
    exact ⟨[], by simp [processPois], by simp, by simp⟩
  | cons p rest ih =>
    intro count acc
    by_cases hlim : limit ≤ count
    · exact ⟨[], by simp [processPois, hlim], by simp, by simp⟩
    · by_cases hskip : p.osm_id ∈ existingIds
      · obtain ⟨news, heq, hmem, hnd⟩ := ih count acc
        refine ⟨news, by simp [processPois, hlim, hskip, heq], ?_, ?_⟩
        · intro q hq
          exact ⟨(hmem q hq).1, List.mem_cons_of_mem _ (hmem q hq).2⟩
        · intro hnodup
          exact hnd (List.Nodup.of_cons hnodup)
      · by_cases hprio : p.priority_score < 0
        · obtain ⟨news, heq, hmem, hnd⟩ := ih count acc
          refine ⟨news, by simp [processPois, hlim, hskip, hprio, heq], ?_, ?_⟩
          · intro q hq
            exact ⟨(hmem q hq).1, List.mem_cons_of_mem _ (hmem q hq).2⟩
          · intro hnodup
            exact hnd (List.Nodup.of_cons hnodup)
        · cases henr : enrich p with
          | none =>
            obtain ⟨news, heq, hmem, hnd⟩ := ih count acc
            refine ⟨news, by simp [processPois, hlim, hskip, hprio, henr, heq], ?_, ?_⟩
            · intro q hq
              exact ⟨(hmem q hq).1, List.mem_cons_of_mem _ (hmem q hq).2⟩
            · intro hnodup
              exact hnd (List.Nodup.of_cons hnodup)
          | some d =>
            obtain ⟨news, heq, hmem, hnd⟩ :=
              ih (count + 1) (acc ++ [{ p with payload := some d }])
            refine ⟨{ p with payload := some d } :: news, ?_, ?_, ?_⟩
            · have hstep : processPois existingIds limit enrich (p :: rest) count acc
                  = processPois existingIds limit enrich rest (count + 1)
                      (acc ++ [{ p with payload := some d }]) := by
                simp [processPois, hlim, hskip, hprio, henr]
              rw [hstep, heq, List.append_assoc]
              rfl
            · intro q hq
              rcases List.mem_cons.mp hq with rfl | hq2
              · exact ⟨hskip, by simp⟩
              · exact ⟨(hmem q hq2).1, List.mem_cons_of_mem _ (hmem q hq2).2⟩
            · intro hnodup
              rw [List.map_cons, List.nodup_cons]
              have hrest : (rest.map GPoi.osm_id).Nodup := List.Nodup.of_cons hnodup
              refine ⟨?_, hnd hrest⟩
              intro hcon
              rcases List.mem_map.mp hcon with ⟨q, hq, hqid⟩
              have hq_rest : q.osm_id ∈ rest.map GPoi.osm_id := (hmem q hq).2
              rw [hqid] at hq_rest
              have : p.osm_id ∉ rest.map GPoi.osm_id :=
                (List.nodup_cons.mp (by simpa using hnodup)).1
              exact this hq_rest

/-- `ParallelAIEnricher._enrich_poi` distilled to identity flow: a worker
returns the input record, with payload fields merged in on success or by
`_mock_enrich` on failure, or `None` when a 200 response carries no brace,
in which case the record is dropped from `enriched_pois`. -/
def parallelWorker (enrich : GPoi → Option Enrichment) (p : GPoi) : Option GPoi :=
  (enrich p).map (fun d => { p with payload := some d })

lemma filterMap_worker_ids (enrich : GPoi → Option Enrichment) :
    ∀ l : List GPoi,
    (l.filterMap (parallelWorker enrich)).map GPoi.osm_id
      = (l.filter (fun p => (enrich p).isSome)).map GPoi.osm_id := by
  intro l
  induction l with
  | nil => rfl
  | cons p rest ih =>
    cases h : enrich p with
    | none => simp [List.filterMap_cons, List.filter_cons, parallelWorker, h, ih]
    | some d => simp [List.filterMap_cons, List.filter_cons, parallelWorker, h, ih]

/-- C2 (amended): for both the sequential and the parallel enricher the
persisted Gold set equals the previously enriched records, unchanged and in
place, followed by the newly enriched ones; no record whose identity is in
the existing set is enriched again; and the identity keys are pairwise
distinct provided the input and existing identity keys are (the separate
counterexample shows uniqueness fails when the merged input itself repeats
an identity). -/
theorem enrichment_union_and_skip (existing input : List GPoi) (limit : ℕ)
    (enrich : GPoi → Option Enrichment) (results : List GPoi)
    (hres : results.Perm ((parallelToEnrich existing input).filterMap
        (parallelWorker enrich))) :
    (∃ news, processCityGold existing input limit enrich = existing ++ news ∧
      (∀ q ∈ news, q.osm_id ∉ existing.map GPoi.osm_id ∧
          q.osm_id ∈ input.map GPoi.osm_id) ∧
      ((input.map GPoi.osm_id).Nodup → (existing.map GPoi.osm_id).Nodup →
        ((processCityGold existing input limit enrich).map GPoi.osm_id).Nodup)) ∧
    (parallelMerge existing results = existing ++ results ∧
      (∀ q ∈ results, q.osm_id ∉ existing.map GPoi.osm_id) ∧
      ((input.map GPoi.osm_id).Nodup → (existing.map GPoi.osm_id).Nodup →
        ((parallelMerge existing results).map GPoi.osm_id).Nodup)) := by
  constructor
  · obtain ⟨news, heq, hmem, hnd⟩ :=
      processPois_split (existing.map GPoi.osm_id) limit enrich input 0 existing
    refine ⟨news, heq, hmem, ?_⟩
    intro hin hex
    rw [show processCityGold existing input limit enrich
        = processPois (existing.map GPoi.osm_id) limit enrich input 0 existing from rfl,
      heq, List.map_append, List.nodup_append]
    refine ⟨hex, hnd hin, ?_⟩
    intro a ha hb
    rcases List.mem_map.mp hb with ⟨q, hq, rfl⟩
    exact (hmem q hq).1 ha
  · have hresmem : ∀ q ∈ results, q.osm_id ∉ existing.map GPoi.osm_id := by
      intro q hq
      have hq2 : q ∈ (parallelToEnrich existing input).filterMap (parallelWorker enrich) :=
        hres.mem_iff.mp hq
      rcases List.mem_filterMap.mp hq2 with ⟨p, hp, hpq⟩
      have hp2 := List.of_mem_filter hp
      have hid : q.osm_id = p.osm_id := by
        cases h : enrich p with
        | none => rw [parallelWorker, h] at hpq; simp at hpq
        | some d =>
          rw [parallelWorker, h] at hpq
          simp only [Option.map_some'] at hpq
          have hq3 := Option.some.inj hpq
          rw [← hq3]
      rw [hid]
      simpa using hp2
    refine ⟨rfl, hresmem, ?_⟩
    intro hin hex
    rw [parallelMerge, List.map_append, List.nodup_append]
    refine ⟨hex, ?_, ?_⟩
    · have hperm : (results.map GPoi.osm_id).Perm
          (((parallelToEnrich existing input).filterMap (parallelWorker enrich)).map
            GPoi.osm_id) := hres.map GPoi.osm_id
      rw [hperm.nodup_iff, filterMap_worker_ids]
      have hsub : List.Sublist
          (((parallelToEnrich existing input).filter
            (fun p => (enrich p).isSome)).map GPoi.osm_id)
          (input.map GPoi.osm_id) := by
        apply List.Sublist.map
        exact (List.filter_sublist _).trans (List.filter_sublist _)
      exact hin.sublist hsub
    · intro a ha hb
      rcases List.mem_map.mp hb with ⟨q, hq, rfl⟩
      exact hresmem q hq ha

/-- Two input records carrying the same identity key (as can arise when a
manual/CSV record repeats an identity already present in the cleaned
layer). -/
def dupA : GPoi := ⟨"node/1", "Old Fort", 50, none⟩

def dupB : GPoi := ⟨"node/1", "Maiden Tower", 40, none⟩

/-- An enrichment backend that always succeeds with the fallback payload. -/
def constFallbackEnrich : GPoi → Option Enrichment :=
  fun p => some (generateFallbackEnrichment ⟨p.name, some "historic"⟩ "Baku")

/-- A previously enriched Gold record. -/
def exG : GPoi :=
  ⟨"node/9", "Palace", 60,
   some (generateFallbackEnrichment ⟨"Palace", some "historic"⟩ "Baku")⟩

/-- C2 (counterexample): with an empty existing Gold set and a merged input
containing two records with the same `osm_id`, the enrichment run persists
that identity twice — the skip set is computed once up front and never
updated during the run, so uniqueness of identity keys fails. -/
theorem duplicate_input_identity_enriched_twice :
    (processCityGold [] [dupA, dupB] 10 constFallbackEnrich).map GPoi.osm_id
        = ["node/1", "node/1"] ∧
    ¬ ((processCityGold [] [dupA, dupB] 10 constFallbackEnrich).map
        GPoi.osm_id).Nodup := by decide

/-- C2 (witness for `enrichment_union_and_skip`). -/
theorem enrichment_union_and_skip_witness :
    ((processCityGold [exG] [dupA] 5 constFallbackEnrich).map GPoi.osm_id).Nodup ∧
    ((parallelMerge [exG] ((parallelToEnrich [exG] [dupA]).filterMap
        (parallelWorker constFallbackEnrich))).map GPoi.osm_id).Nodup := by
  obtain ⟨⟨news, heq, hmem, hnd⟩, hpm, hpmem, hpnd⟩ :=
    enrichment_union_and_skip [exG] [dupA] 5 constFallbackEnrich
      ((parallelToEnrich [exG] [dupA]).filterMap (parallelWorker constFallbackEnrich))
      (List.Perm.refl _)
  exact ⟨hnd (by decide) (by decide), hpnd (by decide) (by decide)⟩

/-- A row of the `destinations` table (key columns; the remaining copied
columns play no role in keying or counting). -/
structure DestRow where
  id : ℕ
  slug : String
  name : String
deriving DecidableEq

/-- A row of the `destination_details` table. -/
structure DetailRow where
  destination_id : ℕ
  summary : Option String
deriving DecidableEq

/-- A row of the `activities` table (identity-relevant columns). -/
structure ActivityRow where
  destination_id : ℕ
  name : String
  category : String
  description : Option String
deriving DecidableEq

/-- The database reachable through the Supabase client: the three tables
touched by `load_gold_layer`, plus a fresh-id counter for inserts into
`destinations`. -/
structure DbState where
  nextId : ℕ
  destinations : List DestRow
  destination_details : List DetailRow
  activities : List ActivityRow
deriving DecidableEq

/-- `table('destinations').upsert(core_data, on_conflict='slug')`: update
the row(s) with this slug in place, or append a new row. -/
def upsertDest (s : DbState) (slug nm : String) : DbState :=
  if s.destinations.any (fun r => r.slug == slug) then
    { s with destinations :=
        s.destinations.map (fun r => if r.slug == slug then { r with name := nm } else r) }
  else
    { s with
        nextId := s.nextId + 1,
        destinations := s.destinations ++ [{ id := s.nextId, slug := slug, name := nm }] }

/-- `table('destinations').select('id').eq('slug', ...).single()`. -/
def selectDestId (s : DbState) (slug : String) : Option ℕ :=
  (s.destinations.find? (fun r => r.slug == slug)).map DestRow.id

/-- `table('destination_details').upsert(details_data,
on_conflict='destination_id')`. -/
def upsertDetails (s : DbState) (destId : ℕ) (summary : Option String) : DbState :=
  if s.destination_details.any (fun r => r.destination_id == destId) then
    { s with destination_details :=
        s.destination_details.map (fun r =>
          if r.destination_id == destId then { r with summary := summary } else r) }
  else
    { s with destination_details := s.destination_details ++ [⟨destId, summary⟩] }

/-- The `destination_details.json` content consumed by the loader. -/
structure DestData where
  slug : String
  name : String
  summary : Option String
deriving DecidableEq

/-- A Gold POI as consumed by the activities part of the loader. -/
structure LPoi where
  name : String
  category : Option String
  description : Option String
deriving DecidableEq

/-- The activity dictionary built for one POI. -/
def mkActivity (destId : ℕ) (p : LPoi) : ActivityRow :=
  ⟨destId, p.name, p.category.getD "unknown", p.description⟩

/-- `range(0, len(activities), batch_size)` slicing, with fuel equal to the
list length (each step consumes at least one element for positive `n`). -/
def chunksFuel (n : ℕ) : ℕ → List ActivityRow → List (List ActivityRow)
  | 0, _ => []
  | _, [] => []
  | fuel + 1, l => l.take n :: chunksFuel n fuel (l.drop n)

def chunks (n : ℕ) (l : List ActivityRow) : List (List ActivityRow) :=
  chunksFuel n l.length l

/-- The batch loop: `table('activities').insert(batch)` appends each batch
(plain insert, no conflict target). -/
def insertActivities (s : DbState) (rows : List ActivityRow) : DbState :=
  (chunks 50 rows).foldl (fun st batch => { st with activities := st.activities ++ batch }) s

/-- `SupabaseLoader.load_gold_layer`: destination upsert, id fetch, details
upsert, then batched plain inserts of the activities; a missing destination
file (or missing id) returns without touching the activities. -/
def loadGoldLayer (s : DbState) (dest : Option DestData) (pois : List LPoi) : DbState :=
  match dest with
  | none => s
  | some d =>
    let s1 := upsertDest s d.slug d.name
    match selectDestId s1 d.slug with
    | none => s1
    | some destId =>
      let s2 := upsertDetails s1 destId d.summary
      insertActivities s2 (pois.map (mkActivity destId))

lemma chunksFuel_flatten (n : ℕ) (hn : 0 < n) :
    ∀ (fuel : ℕ) (l : List ActivityRow), l.length ≤ fuel →
    (chunksFuel n fuel l).flatten = l := by
  intro fuel
  induction fuel with
  | zero =>
    intro l hl
    rw [List.length_eq_zero.mp (Nat.le_zero.mp hl)]
    rfl
  | succ fuel ih =>
    intro l hl
    cases l with
    | nil => rfl
    | cons a t =>
      have hlen : (List.drop n (a :: t)).length ≤ fuel := by
        rw [List.length_drop, List.length_cons]
        simp only [List.length_cons] at hl
        omega
      simp only [chunksFuel, List.flatten_cons, ih (List.drop n (a :: t)) hlen]
      exact List.take_append_drop n (a :: t)

lemma insertActivities_spec (s : DbState) (rows : List ActivityRow) :
    insertActivities s rows =
      { s with activities := s.activities ++ rows } := by
  unfold insertActivities
  have hfl : (chunks 50 rows).flatten = rows :=
    chunksFuel_flatten 50 (by norm_num) rows.length rows le_rfl
  have hgen : ∀ (bs : List (List ActivityRow)) (st : DbState),
      bs.foldl (fun st batch => { st with activities := st.activities ++ batch }) st
        = { st with activities := st.activities ++ bs.flatten } := by
    intro bs
    induction bs with
    | nil => intro st; simp
    | cons b bt ih =>
      intro st
      simp only [List.foldl_cons, ih, List.flatten_cons, List.append_assoc]
  rw [hgen, hfl]

lemma upsertDest_names (s : DbState) (slug nm : String) :
    ∀ r ∈ (upsertDest s slug nm).destinations, r.slug = slug → r.name = nm := by
  intro r hr hslug
  unfold upsertDest at hr
  split_ifs at hr with hany
  · simp only [List.mem_map] at hr
    obtain ⟨r0, hr0, rfl⟩ := hr
    by_cases h : r0.slug = slug
    · simp [h]
    · rw [if_neg (by simpa using h)] at hslug
      exact absurd hslug h
  · simp only [List.mem_append, List.mem_singleton] at hr
    rcases hr with hr | rfl
    · exact absurd (List.any_eq_true.mpr ⟨r, hr, by simp [hslug]⟩) hany
    · rfl

lemma upsertDest_any (s : DbState) (slug nm : String) :
    (upsertDest s slug nm).destinations.any (fun r => r.slug == slug) = true := by
  unfold upsertDest
  split_ifs with hany
  · rcases List.any_eq_true.mp hany with ⟨r, hr, hrs⟩
    apply List.any_eq_true.mpr
    refine ⟨if r.slug == slug then { r with name := nm } else r,
      List.mem_map.mpr ⟨r, hr, rfl⟩, ?_⟩
    split_ifs with h <;> simpa using hrs
  · apply List.any_eq_true.mpr
    exact ⟨⟨s.nextId, slug, nm⟩, by simp, by simp⟩

lemma upsertDest_already (s : DbState) (slug nm : String)
    (hall : ∀ r ∈ s.destinations, r.slug = slug → r.name = nm)
    (hany : s.destinations.any (fun r => r.slug == slug) = true) :
    upsertDest s slug nm = s := by
  unfold upsertDest
  rw [if_pos hany]
  have hmap : ∀ l : List DestRow, (∀ r ∈ l, r.slug = slug → r.name = nm) →
      l.map (fun r => if r.slug == slug then { r with name := nm } else r) = l := by
    intro l
    induction l with
    | nil => intro _; rfl
    | cons a t ih =>
      intro hall2
      simp only [List.map_cons]
      rw [ih (fun r hr hs => hall2 r (List.mem_cons_of_mem a hr) hs)]
      by_cases h : a.slug = slug
      · rw [if_pos (by simpa using h), ← hall2 a (List.mem_cons_self a t) h]
      · rw [if_neg (by simpa using h)]
  rw [hmap s.destinations hall]

lemma upsertDetails_names (s : DbState) (destId : ℕ) (summary : Option String) :
    ∀ r ∈ (upsertDetails s destId summary).destination_details,
      r.destination_id = destId → r.summary = summary := by
  intro r hr hid
  unfold upsertDetails at hr
  split_ifs at hr with hany
  · simp only [List.mem_map] at hr
    obtain ⟨r0, hr0, rfl⟩ := hr
    by_cases h : r0.destination_id = destId
    · simp [h]
    · rw [if_neg (by simpa using h)] at hid
      exact absurd hid h
  · simp only [List.mem_append, List.mem_singleton] at hr
    rcases hr with hr | rfl
    · exact absurd (List.any_eq_true.mpr ⟨r, hr, by simp [hid]⟩) hany
    · rfl

lemma upsertDetails_any (s : DbState) (destId : ℕ) (summary : Option String) :
    (upsertDetails s destId summary).destination_details.any
      (fun r => r.destination_id == destId) = true := by
  unfold upsertDetails
  split_ifs with hany
  · rcases List.any_eq_true.mp hany with ⟨r, hr, hrs⟩
    apply List.any_eq_true.mpr
    refine ⟨if r.destination_id == destId then { r with summary := summary } else r,
      List.mem_map.mpr ⟨r, hr, rfl⟩, ?_⟩
    split_ifs with h <;> simpa using hrs
  · apply List.any_eq_true.mpr
    exact ⟨⟨destId, summary⟩, by simp, by simp⟩

lemma upsertDetails_already (s : DbState) (destId : ℕ) (summary : Option String)
    (hall : ∀ r ∈ s.destination_details, r.destination_id = destId → r.summary = summary)
    (hany : s.destination_details.any (fun r => r.destination_id == destId) = true) :
    upsertDetails s destId summary = s := by
  unfold upsertDetails
  rw [if_pos hany]
  have hmap : ∀ l : List DetailRow,
      (∀ r ∈ l, r.destination_id = destId → r.summary = summary) →
      l.map (fun r => if r.destination_id == destId then { r with summary := summary } else r)
        = l := by
    intro l
    induction l with
    | nil => intro _; rfl
    | cons a t ih =>
      intro hall2
      simp only [List.map_cons]
      rw [ih (fun r hr hs => hall2 r (List.mem_cons_of_mem a hr) hs)]
      by_cases h : a.destination_id = destId
      · rw [if_pos (by simpa using h), ← hall2 a (List.mem_cons_self a t) h]
      · rw [if_neg (by simpa using h)]
  rw [hmap s.destination_details hall]

lemma upsertDetails_destinations (s : DbState) (destId : ℕ) (summary : Option String) :
    (upsertDetails s destId summary).destinations = s.destinations := by
  unfold upsertDetails
  split_ifs <;> rfl

lemma selectDestId_after_upsert (s : DbState) (slug nm : String) :
    ∃ destId, selectDestId (upsertDest s slug nm) slug = some destId := by
  have hany := upsertDest_any s slug nm
  rcases List.any_eq_true.mp hany with ⟨r, hr, hrs⟩
  cases hf : (upsertDest s slug nm).destinations.find? (fun r => r.slug == slug) with
  | none =>
    exact absurd hrs (by simpa using List.find?_eq_none.mp hf r hr)
  | some r0 =>
    exact ⟨r0.id, by simp [selectDestId, hf]⟩

/-- C4 (amended): the destination and destination-details loads are
idempotent upserts (keyed by slug and destination id), and the fetched
destination id is stable, but the activities are loaded with a plain
`insert`: running `load_gold_layer` a second time appends the full activity
list again, duplicating every activity row. -/
theorem loadGoldLayer_second_run_duplicates_activities
    (s : DbState) (d : DestData) (pois : List LPoi) :
    ∃ destId,
      selectDestId (loadGoldLayer s (some d) pois) d.slug = some destId ∧
      loadGoldLayer (loadGoldLayer s (some d) pois) (some d) pois
        = { loadGoldLayer s (some d) pois with
            activities := (loadGoldLayer s (some d) pois).activities
              ++ pois.map (mkActivity destId) } := by
  obtain ⟨i, hsel⟩ := selectDestId_after_upsert s d.slug d.name
  have hL1 : loadGoldLayer s (some d) pois
      = insertActivities (upsertDetails (upsertDest s d.slug d.name) i d.summary)
          (pois.map (mkActivity i)) := by
    show (match selectDestId (upsertDest s d.slug d.name) d.slug with
      | none => upsertDest s d.slug d.name
      | some destId =>
        insertActivities (upsertDetails (upsertDest s d.slug d.name) destId d.summary)
          (pois.map (mkActivity destId))) = _
    rw [hsel]
  have hSdest : (loadGoldLayer s (some d) pois).destinations
      = (upsertDest s d.slug d.name).destinations := by
    rw [hL1, insertActivities_spec, upsertDetails_destinations]
  have hSdet : (loadGoldLayer s (some d) pois).destination_details
      = (upsertDetails (upsertDest s d.slug d.name) i d.summary).destination_details := by
    rw [hL1, insertActivities_spec]
  have hsel2 : selectDestId (loadGoldLayer s (some d) pois) d.slug = some i := by
    unfold selectDestId at hsel ⊢
    rw [hSdest]
    exact hsel
  refine ⟨i, hsel2, ?_⟩
  have hT1 : upsertDest (loadGoldLayer s (some d) pois) d.slug d.name
      = loadGoldLayer s (some d) pois := by
    apply upsertDest_already
    · intro r hr hs
      rw [hSdest] at hr
      exact upsertDest_names s d.slug d.name r hr hs
    · rw [hSdest]
      exact upsertDest_any s d.slug d.name
  have hT2 : upsertDetails (loadGoldLayer s (some d) pois) i d.summary
      = loadGoldLayer s (some d) pois := by
    apply upsertDetails_already
    · intro r hr hs
      rw [hSdet] at hr
      exact upsertDetails_names (upsertDest s d.slug d.name) i d.summary r hr hs
    · rw [hSdet]
      exact upsertDetails_any (upsertDest s d.slug d.name) i d.summary
  have hunfold : loadGoldLayer (loadGoldLayer s (some d) pois) (some d) pois
      = (match selectDestId (upsertDest (loadGoldLayer s (some d) pois) d.slug d.name)
            d.slug with
        | none => upsertDest (loadGoldLayer s (some d) pois) d.slug d.name
        | some destId =>
          insertActivities
            (upsertDetails (upsertDest (loadGoldLayer s (some d) pois) d.slug d.name)
              destId d.summary)
            (pois.map (mkActivity destId))) := rfl
  rw [hunfold, hT1, hsel2]
  dsimp only
  rw [hT2, insertActivities_spec]

/-- An initial empty database, a destination file, and one POI for the
duplicate-insert counterexample. -/
def s0 : DbState := ⟨1, [], [], []⟩

def d0 : DestData := ⟨"baku", "Baku", some "Capital of Azerbaijan"⟩

def lp0 : LPoi := ⟨"Old Fort", some "historic", none⟩

/-- C4 (counterexample): loading the same Gold layer twice leaves the
destination rows unchanged but stores the activity row twice — activities
are inserted, not upserted, so the load is not idempotent. -/
theorem loadGoldLayer_not_idempotent :
    (loadGoldLayer s0 (some d0) [lp0]).activities.length = 1 ∧
    (loadGoldLayer (loadGoldLayer s0 (some d0) [lp0]) (some d0) [lp0]).activities.length = 2 ∧
    (loadGoldLayer (loadGoldLayer s0 (some d0) [lp0]) (some d0) [lp0]).destinations
      = (loadGoldLayer s0 (some d0) [lp0]).destinations ∧
    (loadGoldLayer (loadGoldLayer s0 (some d0) [lp0]) (some d0) [lp0]).activities
      ≠ (loadGoldLayer s0 (some d0) [lp0]).activities := by decide

/-- `NameTranslator.georgian_map` (Mkhedruli letters to Latin). -/
def georgianMap : List (Char × String) :=
  [('ა', "a"), ('ბ', "b"), ('გ', "g"), ('დ', "d"), ('ე', "e"), ('ვ', "v"),
   ('ზ', "z"), ('თ', "t"), ('ი', "i"), ('კ', "k"), ('ლ', "l"), ('მ', "m"),
   ('ნ', "n"), ('ო', "o"), ('პ', "p"), ('ჟ', "zh"), ('რ', "r"), ('ს', "s"),
   ('ტ', "t"), ('უ', "u"), ('ფ', "p"), ('ქ', "k"), ('ღ', "gh"), ('ყ', "q"),
   ('შ', "sh"), ('ჩ', "ch"), ('ც', "ts"), ('ძ', "dz"), ('წ', "ts"), ('ჭ', "ch"),
   ('ხ', "kh"), ('ჯ', "j"), ('ჰ', "h")]

/-- `NameTranslator.cyrillic_map` (Russian alphabet, both cases; the hard
and soft signs map to the empty string). -/
def cyrillicMap : List (Char × String) :=
  [('а', "a"), ('б', "b"), ('в', "v"), ('г', "g"), ('д', "d"), ('е', "e"),
   ('ё', "yo"), ('ж', "zh"), ('з', "z"), ('и', "i"), ('й', "y"), ('к', "k"),
   ('л', "l"), ('м', "m"), ('н', "n"), ('о', "o"), ('п', "p"), ('р', "r"),
   ('с', "s"), ('т', "t"), ('у', "u"), ('ф', "f"), ('х', "kh"), ('ц', "ts"),
   ('ч', "ch"), ('ш', "sh"), ('щ', "shch"), ('ъ', ""), ('ы', "y"), ('ь', ""),
   ('э', "e"), ('ю', "yu"), ('я', "ya"),
   ('А', "A"), ('Б', "B"), ('В', "V"), ('Г', "G"), ('Д', "D"), ('Е', "E"),
   ('Ё', "Yo"), ('Ж', "Zh"), ('З', "Z"), ('И', "I"), ('Й', "Y"), ('К', "K"),
   ('Л', "L"), ('М', "M"), ('Н', "N"), ('О', "O"), ('П', "P"), ('Р', "R"),
   ('С', "S"), ('Т', "T"), ('У', "U"), ('Ф', "F"), ('Х', "Kh"), ('Ц', "Ts"),
   ('Ч', "Ch"), ('Ш', "Sh"), ('Щ', "Shch"), ('Ъ', ""), ('Ы', "Y"), ('Ь', ""),
   ('Э', "E"), ('Ю', "Yu"), ('Я', "Ya")]

/-- One character of `NameTranslator._transliterate_georgian`: the mapped
string, or the character itself when unmapped. -/
def georgianCharMap (c : Char) : Str :=
  match List.lookup c georgianMap with
  | some s => s.toList
  | none => [c]

/-- One character of `NameTranslator._transliterate_cyrillic`. -/
def cyrillicCharMap (c : Char) : Str :=
  match List.lookup c cyrillicMap with
  | some s => s.toList
  | none => [c]

/-- `NameTranslator._transliterate_georgian`: per-character mapping, join,
then `str.capitalize()`. -/
def translitGeorgian (t : Str) : Str :=
  pyCapitalize (t.flatMap georgianCharMap)

/-- `NameTranslator._transliterate_cyrillic`. -/
def translitCyrillic (t : Str) : Str :=
  t.flatMap cyrillicCharMap

/-- `NameTranslator._transliterate`: script detection by the Georgian and
Cyrillic block patterns, in that order; any other script yields `None`. -/
def transliterate (t : Str) : Option Str :=
  if t.any isGeorgianChar then some (translitGeorgian t)
  else if t.any isCyrillicChar then some (translitCyrillic t)
  else none

/-- A POI as consumed by the name translator. -/
structure TPoi where
  name : Str
  tags : List (String × Str)
  original_name : Option Str
deriving DecidableEq

/-- The tag priority list of `NameTranslator._get_osm_english_name`. -/
def englishNameTags : List String :=
  ["name:en", "int_name", "name_en", "official_name:en"]

/-- `NameTranslator._get_osm_english_name`: first English-name tag whose
stripped value is non-empty. -/
def getOsmEnglishName (tags : List (String × Str)) : Option Str :=
  (englishNameTags.filterMap (fun tg =>
    match List.lookup tg tags with
    | some v => if (pyStrip v).isEmpty then none else some (pyStrip v)
    | none => none)).head?

/-- `NameTranslator.translate_poi_name`: OSM English tag first, then
transliteration (accepted only if truthy and different from the original),
else `None`. -/
def translatePoiName (p : TPoi) : Option Str :=
  let originalName := pyStrip p.name
  if originalName.isEmpty then none
  else
    match getOsmEnglishName p.tags with
    | some e => some e
    | none =>
      match transliterate originalName with
      | some t => if ¬t.isEmpty ∧ t ≠ originalName then some t else none
      | none => none

/-- `translate_poi_names`: a translated record gets the English name with
`original_name` preserved; an untranslated record is kept only when the raw
name already matches the English pattern, otherwise it is dropped. -/
def translatePoiNames (pois : List TPoi) : List TPoi :=
  pois.filterMap (fun p =>
    match translatePoiName p with
    | some e => some { p with name := e, original_name := some p.name }
    | none => if isEnglish p.name then some p else none)

/-- The Cyrillic hard sign: a single-character name entirely in a supported
script whose transliteration is the empty string. -/
def hardSignPoi : TPoi := ⟨"ъ".toList, [], none⟩

/-- C9 (counterexample): the name "ъ" consists only of Cyrillic characters,
yet transliteration yields the empty string, translation fails, and the
record is dropped — refuting "every name consisting only of characters of a
supported script produces a non-empty Latin string". -/
theorem hardSign_translation_fails :
    isCyrillicChar 'ъ' = true ∧
    transliterate "ъ".toList = some [] ∧
    translatePoiName hardSignPoi = none ∧
    translatePoiNames [hardSignPoi] = [] := by decide

def isLatinLetter (c : Char) : Bool := isUpperAZ c || isLowerAZ c

lemma charLe_iff (a b : Char) : (a ≤ b) ↔ a.toNat ≤ b.toNat := by
  rw [Char.le_def, UInt32.le_def, BitVec.le_def]
  exact Iff.rfl

lemma toNat_ofNat_valid (n : ℕ) (h : n < 0xd800) : (Char.ofNat n).toNat = n := by
  rw [Char.ofNat, dif_pos (Or.inl h)]
  rfl

lemma isUpperAZ_iff (c : Char) : isUpperAZ c = true ↔ 65 ≤ c.toNat ∧ c.toNat ≤ 90 := by
  simp only [isUpperAZ, decide_eq_true_eq, charLe_iff]
  exact Iff.rfl

lemma isLowerAZ_iff (c : Char) : isLowerAZ c = true ↔ 97 ≤ c.toNat ∧ c.toNat ≤ 122 := by
  simp only [isLowerAZ, decide_eq_true_eq, charLe_iff]
  exact Iff.rfl

lemma inCodeRange_iff (lo hi : ℕ) (c : Char) :
    inCodeRange lo hi c = true ↔ lo ≤ c.toNat ∧ c.toNat ≤ hi := by
  simp [inCodeRange]

lemma geo_not_latin (c : Char) (h : isGeorgianChar c = true) :
    isLatinLetter c = false := by
  rw [isGeorgianChar, inCodeRange_iff] at h
  rw [isLatinLetter, Bool.or_eq_false_iff]
  constructor
  · rw [Bool.eq_false_iff]
    intro hcon
    rw [isUpperAZ_iff] at hcon
    omega
  · rw [Bool.eq_false_iff]
    intro hcon
    rw [isLowerAZ_iff] at hcon
    omega

lemma cyr_not_latin (c : Char) (h : isCyrillicChar c = true) :
    isLatinLetter c = false := by
  rw [isCyrillicChar, inCodeRange_iff] at h
  rw [isLatinLetter, Bool.or_eq_false_iff]
  constructor
  · rw [Bool.eq_false_iff]
    intro hcon
    rw [isUpperAZ_iff] at hcon
    omega
  · rw [Bool.eq_false_iff]
    intro hcon
    rw [isLowerAZ_iff] at hcon
    omega

lemma cyr_not_geo (c : Char) (h : isCyrillicChar c = true) :
    isGeorgianChar c = false := by
  rw [isCyrillicChar, inCodeRange_iff] at h
  rw [isGeorgianChar, Bool.eq_false_iff]
  intro hcon
  rw [inCodeRange_iff] at hcon
  omega

lemma asciiUpper_of_lower (c : Char) (h : isLowerAZ c = true) :
    isUpperAZ (asciiUpper c) = true := by
  have hc := of_decide_eq_true h
  have h1 : 97 ≤ c.toNat := (charLe_iff 'a' c).mp hc.1
  have h2 : c.toNat ≤ 122 := (charLe_iff c 'z').mp hc.2
  rw [asciiUpper, if_pos hc]
  have hv : (Char.ofNat (c.toNat - 32)).toNat = c.toNat - 32 :=
    toNat_ofNat_valid _ (by omega)
  rw [isUpperAZ_iff, hv]
  omega

lemma asciiLower_of_lower (c : Char) (h : isLowerAZ c = true) :
    asciiLower c = c := by
  have hc := of_decide_eq_true h
  have h1 : 97 ≤ c.toNat := (charLe_iff 'a' c).mp hc.1
  rw [asciiLower, if_neg]
  rintro ⟨_, h2⟩
  have h3 : c.toNat ≤ 90 := (charLe_iff c 'Z').mp h2
  omega

lemma lookup_mem {β : Type} : ∀ (l : List (Char × β)) (c : Char) (s : β),
    List.lookup c l = some s → (c, s) ∈ l := by
  intro l
  induction l with
  | nil => intro c s h; cases h
  | cons kv t ih =>
    intro c s h
    obtain ⟨k, v⟩ := kv
    rw [List.lookup_cons] at h
    cases hbeq : c == k with
    | true =>
      rw [hbeq] at h
      have hk : c = k := eq_of_beq hbeq
      cases h
      rw [hk]
      exact List.mem_cons_self _ _
    | false =>
      rw [hbeq] at h
      exact List.mem_cons_of_mem _ (ih c s h)

lemma georgianMap_entries :
    georgianMap.all (fun e =>
      isGeorgianChar e.1 && !isPyWhitespace e.1 &&
      !e.2.toList.isEmpty && e.2.toList.all isLowerAZ) = true := by decide

lemma cyrillicMap_entries :
    cyrillicMap.all (fun e =>
      isCyrillicChar e.1 && !isPyWhitespace e.1 &&
      e.2.toList.all isLatinLetter) = true := by decide

lemma dropWhile_no_match (p : Char → Bool) :
    ∀ s : Str, (∀ c ∈ s, p c = false) → s.dropWhile p = s := by
  intro s h
  cases s with
  | nil => rfl
  | cons a t =>
    rw [List.dropWhile_cons, h a (List.mem_cons_self a t)]
    simp

lemma pyStrip_no_ws (s : Str) (h : ∀ c ∈ s, isPyWhitespace c = false) :
    pyStrip s = s := by
  unfold pyStrip
  rw [dropWhile_no_match _ s h,
    dropWhile_no_match _ s.reverse (fun c hc => h c (List.mem_reverse.mp hc)),
    List.reverse_reverse]

lemma pyStrip_subset (s : Str) : ∀ c ∈ pyStrip s, c ∈ s := by
  intro c hc
  unfold pyStrip at hc
  rw [List.mem_reverse] at hc
  have h1 := (List.dropWhile_sublist (l := (s.dropWhile isPyWhitespace).reverse)
      (p := isPyWhitespace)).subset hc
  rw [List.mem_reverse] at h1
  exact (List.dropWhile_sublist (l := s) (p := isPyWhitespace)).subset h1

/-- C9 (amended): a non-empty name whose characters all lie in the Georgian
mapping table transliterates to a non-empty all-Latin name that the
translator returns; the same holds for the Cyrillic table provided at least
one character maps to a non-empty string (the separate counterexample shows
the claim fails without this proviso); and a name containing no Georgian or
Cyrillic character and not matching the Latin pattern is dropped when no
English-name tag is present. -/
theorem nameTranslator_scripts (name : Str) :
    (name ≠ [] → (∀ c ∈ name, (List.lookup c georgianMap).isSome) →
      ∃ t, transliterate name = some t ∧ t ≠ [] ∧ t.all isLatinLetter = true ∧
        translatePoiName ⟨name, [], none⟩ = some t) ∧
    (name ≠ [] → (∀ c ∈ name, (List.lookup c cyrillicMap).isSome) →
      (∃ c ∈ name, ∃ s, List.lookup c cyrillicMap = some s ∧ s.toList ≠ []) →
      ∃ t, transliterate name = some t ∧ t ≠ [] ∧ t.all isLatinLetter = true ∧
        translatePoiName ⟨name, [], none⟩ = some t) ∧
    ((∀ c ∈ name, isGeorgianChar c = false ∧ isCyrillicChar c = false) →
      isEnglish name = false →
      translatePoiName ⟨name, [], none⟩ = none ∧
      translatePoiNames [⟨name, [], none⟩] = []) := by
  have hGfact : ∀ c s, List.lookup c georgianMap = some s →
      isGeorgianChar c = true ∧ isPyWhitespace c = false ∧
      s.toList ≠ [] ∧ s.toList.all isLowerAZ = true := by
    intro c s hls
    have hm := lookup_mem georgianMap c s hls
    have := List.all_eq_true.mp georgianMap_entries (c, s) hm
    simp only [Bool.and_eq_true, Bool.not_eq_true'] at this
    refine ⟨this.1.1.1, this.1.1.2, ?_, this.2⟩
    intro hcon
    rw [hcon] at this
    simp at this
  have hCfact : ∀ c s, List.lookup c cyrillicMap = some s →
      isCyrillicChar c = true ∧ isPyWhitespace c = false ∧
      s.toList.all isLatinLetter = true := by
    intro c s hls
    have hm := lookup_mem cyrillicMap c s hls
    have := List.all_eq_true.mp cyrillicMap_entries (c, s) hm
    simp only [Bool.and_eq_true, Bool.not_eq_true'] at this
    exact ⟨this.1.1, this.1.2, this.2⟩
  refine ⟨?_, ?_, ?_⟩
  · -- Georgian part
    intro hne hlook
    obtain ⟨c0, rest, rfl⟩ := List.exists_cons_of_ne_nil hne
    have hfacts : ∀ c ∈ c0 :: rest, ∃ s, List.lookup c georgianMap = some s := by
      intro c hc
      exact Option.isSome_iff_exists.mp (hlook c hc)
    obtain ⟨s0, hs0⟩ := hfacts c0 (List.mem_cons_self c0 rest)
    have hgeo0 := (hGfact c0 s0 hs0).1
    have hany : (c0 :: rest).any isGeorgianChar = true :=
      List.any_eq_true.mpr ⟨c0, List.mem_cons_self c0 rest, hgeo0⟩
    have hjoin_all : ((c0 :: rest).flatMap georgianCharMap).all isLowerAZ = true := by
      apply List.all_eq_true.mpr
      intro x hx
      rcases List.mem_flatMap.mp hx with ⟨c, hc, hxc⟩
      obtain ⟨s, hs⟩ := hfacts c hc
      rw [georgianCharMap, hs] at hxc
      exact List.all_eq_true.mp (hGfact c s hs).2.2.2 x hxc
    have hjoin_ne : (c0 :: rest).flatMap georgianCharMap ≠ [] := by
      rw [List.flatMap_cons]
      intro hcon
      rcases List.append_eq_nil.mp hcon with ⟨h1, _⟩
      rw [georgianCharMap, hs0] at h1
      exact (hGfact c0 s0 hs0).2.2.1 h1
    obtain ⟨j0, jt, hj⟩ := List.exists_cons_of_ne_nil hjoin_ne
    have ht_all : (translitGeorgian (c0 :: rest)).all isLatinLetter = true := by
      rw [translitGeorgian, hj, pyCapitalize]
      apply List.all_eq_true.mpr
      intro x hx
      rcases List.mem_cons.mp hx with rfl | hx2
      · have hj0low : isLowerAZ j0 = true := by
          have := List.all_eq_true.mp hjoin_all j0 (by rw [hj]; exact List.mem_cons_self _ _)
          exact this
        rw [isLatinLetter, Bool.or_eq_true]
        exact Or.inl (asciiUpper_of_lower j0 hj0low)
      · rcases List.mem_map.mp hx2 with ⟨y, hy, rfl⟩
        have hylow : isLowerAZ y = true :=
          List.all_eq_true.mp hjoin_all y (by rw [hj]; exact List.mem_cons_of_mem _ hy)
        rw [asciiLower_of_lower y hylow, isLatinLetter, Bool.or_eq_true]
        exact Or.inr hylow
    have ht_ne : translitGeorgian (c0 :: rest) ≠ [] := by
      rw [translitGeorgian, hj, pyCapitalize]
      exact List.cons_ne_nil _ _
    have hstrip : pyStrip (c0 :: rest) = c0 :: rest := by
      apply pyStrip_no_ws
      intro c hc
      obtain ⟨s, hs⟩ := hfacts c hc
      exact (hGfact c s hs).2.1
    have htrans : transliterate (c0 :: rest) = some (translitGeorgian (c0 :: rest)) := by
      rw [transliterate, if_pos hany]
    refine ⟨translitGeorgian (c0 :: rest), htrans, ht_ne, ht_all, ?_⟩
    rw [translatePoiName]
    simp only [hstrip]
    rw [if_neg (by simp)]
    show (match transliterate (c0 :: rest) with
      | some t => if ¬t.isEmpty ∧ t ≠ c0 :: rest then some t else none
      | none => none) = _
    rw [htrans]
    dsimp only
    rw [if_pos]
    constructor
    · rw [List.isEmpty_iff]
      exact ht_ne
    · intro hcon
      have hc0t : c0 ∈ translitGeorgian (c0 :: rest) := by
        rw [hcon]
        exact List.mem_cons_self c0 rest
      have := List.all_eq_true.mp ht_all c0 hc0t
      rw [geo_not_latin c0 hgeo0] at this
      cases this
  · -- Cyrillic part
    intro hne hlook hwit
    obtain ⟨c0, rest, rfl⟩ := List.exists_cons_of_ne_nil hne
    have hfacts : ∀ c ∈ c0 :: rest, ∃ s, List.lookup c cyrillicMap = some s := by
      intro c hc
      exact Option.isSome_iff_exists.mp (hlook c hc)
    obtain ⟨s0, hs0⟩ := hfacts c0 (List.mem_cons_self c0 rest)
    have hcyr0 := (hCfact c0 s0 hs0).1
    have hnogeo : (c0 :: rest).any isGeorgianChar = false := by
      apply List.any_eq_false.mpr
      intro c hc
      obtain ⟨s, hs⟩ := hfacts c hc
      rw [cyr_not_geo c (hCfact c s hs).1]
      exact Bool.false_ne_true
    have hany : (c0 :: rest).any isCyrillicChar = true :=
      List.any_eq_true.mpr ⟨c0, List.mem_cons_self c0 rest, hcyr0⟩
    have ht_all : (translitCyrillic (c0 :: rest)).all isLatinLetter = true := by
      rw [translitCyrillic]
      apply List.all_eq_true.mpr
      intro x hx
      rcases List.mem_flatMap.mp hx with ⟨c, hc, hxc⟩
      obtain ⟨s, hs⟩ := hfacts c hc
      rw [cyrillicCharMap, hs] at hxc
      exact List.all_eq_true.mp (hCfact c s hs).2.2 x hxc
    have ht_ne : translitCyrillic (c0 :: rest) ≠ [] := by
      obtain ⟨c1, hc1, s1, hs1, hs1ne⟩ := hwit
      obtain ⟨x, hx⟩ := List.exists_mem_of_ne_nil s1.toList hs1ne
      apply List.ne_nil_of_mem (a := x)
      rw [translitCyrillic]
      apply List.mem_flatMap.mpr
      exact ⟨c1, hc1, by rw [cyrillicCharMap, hs1]; exact hx⟩
    have hstrip : pyStrip (c0 :: rest) = c0 :: rest := by
      apply pyStrip_no_ws
      intro c hc
      obtain ⟨s, hs⟩ := hfacts c hc
      exact (hCfact c s hs).2.1
    have htrans : transliterate (c0 :: rest) = some (translitCyrillic (c0 :: rest)) := by
      rw [transliterate, if_neg (by rw [hnogeo]; exact Bool.false_ne_true), if_pos hany]
    refine ⟨translitCyrillic (c0 :: rest), htrans, ht_ne, ht_all, ?_⟩
    rw [translatePoiName]
    simp only [hstrip]
    rw [if_neg (by simp)]
    show (match transliterate (c0 :: rest) with
      | some t => if ¬t.isEmpty ∧ t ≠ c0 :: rest then some t else none
      | none => none) = _
    rw [htrans]
    dsimp only
    rw [if_pos]
    constructor
    · rw [List.isEmpty_iff]
      exact ht_ne
    · intro hcon
      have hc0t : c0 ∈ translitCyrillic (c0 :: rest) := by
        rw [hcon]
        exact List.mem_cons_self c0 rest
      have := List.all_eq_true.mp ht_all c0 hc0t
      rw [cyr_not_latin c0 hcyr0] at this
      cases this
  · -- unsupported-script part
    intro hscript heng
    have hname : translatePoiName ⟨name, [], none⟩ = none := by
      rw [translatePoiName]
      by_cases hstrip : (pyStrip name).isEmpty
      · rw [if_pos hstrip]
      · rw [if_neg hstrip]
        have hnogeo : (pyStrip name).any isGeorgianChar = false := by
          apply List.any_eq_false.mpr
          intro c hc
          rw [(hscript c (pyStrip_subset name c hc)).1]
          exact Bool.false_ne_true
        have hnocyr : (pyStrip name).any isCyrillicChar = false := by
          apply List.any_eq_false.mpr
          intro c hc
          rw [(hscript c (pyStrip_subset name c hc)).2]
          exact Bool.false_ne_true
        have htrans : transliterate (pyStrip name) = none := by
          rw [transliterate, if_neg (by rw [hnogeo]; exact Bool.false_ne_true),
            if_neg (by rw [hnocyr]; exact Bool.false_ne_true)]
        show (match getOsmEnglishName [] with
          | some e => some e
          | none =>
            match transliterate (pyStrip name) with
            | some t => if ¬t.isEmpty ∧ t ≠ pyStrip name then some t else none
            | none => none) = none
        rw [show getOsmEnglishName [] = none from rfl, htrans]
    refine ⟨hname, ?_⟩
    simp [translatePoiNames, hname, heng]

/-- C9 (witness for `nameTranslator_scripts`). -/
theorem nameTranslator_scripts_witness :
    ∃ t, transliterate "ჯვ".toList = some t ∧ t ≠ [] ∧ t.all isLatinLetter = true ∧
      translatePoiName ⟨"ჯვ".toList, [], none⟩ = some t :=
  (nameTranslator_scripts "ჯვ".toList).1 (by decide) (by decide)

end DataCollector
